import Mathlib

/-!
Verification development for the Precision Audio Scope signal-processing core
(`src/Precision_Audio_Scope.py`).  Samples are embedded as exact rationals;
the Python functions `estimate_freq`, the trigger-alignment block of `update`,
the `collections.deque(maxlen=...)` ring buffer and `audio_callback` are
translated as computable Lean functions below.
-/

namespace Scope

/-- `HYST_FRAC = 0.05` from the source. -/
def HYST_FRAC : ℚ := 5 / 100

/-- `CHANNELS = 2` from the source. -/
def CHANNELS : ℕ := 2

/-! ## Frequency estimator (`estimate_freq`, lines 37-80) -/

/-- Mean-centered sequence: `mean = sum(samples)/len(samples)`,
`x = [s - mean for s in samples]` (lines 42-43). -/
def centered (samples : List ℚ) : List ℚ :=
  samples.map (fun s => s - samples.sum / (samples.length : ℚ))

/-- `max(abs(v) for v in x)` (line 45): maximum of the absolute values.
Folding `max` with seed `0` agrees with Python's `max` on every nonempty
list of absolute values, the only case the source reaches. -/
def peakOf (x : List ℚ) : ℚ := (x.map (fun v => |v|)).foldr max 0

/-- `th = (peak or 1.0) * HYST_FRAC` (lines 45-46): a zero peak is replaced
by `1.0` before scaling by the hysteresis fraction. -/
def threshold (x : List ℚ) : ℚ :=
  (if peakOf x = 0 then 1 else peakOf x) * HYST_FRAC

/-- `frac = (-a / denom) if denom != 0 else 0.0` with `denom = b - a`
(lines 63-64). -/
def frac (a b : ℚ) : ℚ := if b - a ≠ 0 then -a / (b - a) else 0

/-- Crossing time `t = (i - 1 + frac) / rate` (line 65) for a detected
event `(i, a, b)` where `a = x[i-1]`, `b = x[i]`. -/
def timeOf (rate : ℚ) (e : ℕ × ℚ × ℚ) : ℚ :=
  (((e.1 - 1 : ℕ) : ℚ) + frac e.2.1 e.2.2) / rate

/-- The scan loop of `estimate_freq` (lines 52-67), recorded as the list of
detected crossing events `(i, x[i-1], x[i])`.  Arguments: remaining samples,
previous sample `a = x[i-1]`, current index `i`, armed flag. -/
def scanAux (th : ℚ) : List ℚ → ℚ → ℕ → Bool → List (ℕ × ℚ × ℚ)
  | [], _, _, _ => []
  | b :: rest, a, i, true =>
    if a < 0 ∧ 0 ≤ b then (i, a, b) :: scanAux th rest b (i + 1) false
    else scanAux th rest b (i + 1) true
  | b :: rest, a, i, false =>
    if b ≤ -th then scanAux th rest b (i + 1) true
    else scanAux th rest b (i + 1) false

/-- The events detected by scanning `x` from index 1, starting unarmed. -/
def scanEvents (x : List ℚ) (th : ℚ) : List (ℕ × ℚ × ℚ) :=
  match x with
  | [] => []
  | a :: rest => scanAux th rest a 1 false

/-- `crossings_t` (lines 48-67): the interpolated crossing times produced
by the hysteretic scan over the centered window. -/
def crossingTimes (samples : List ℚ) (rate : ℚ) : List ℚ :=
  (scanEvents (centered samples) (threshold (centered samples))).map (timeOf rate)

/-- `periods = [crossings_t[i+1] - crossings_t[i] for i in range(len-1)]`
(line 73). -/
def periodsOf (samples : List ℚ) (rate : ℚ) : List ℚ :=
  let ct := crossingTimes samples rate
  (ct.zip ct.tail).map (fun p => p.2 - p.1)

/-- Insertion step for sorting (ascending). -/
def insertSorted (a : ℚ) : List ℚ → List ℚ
  | [] => [a]
  | b :: l => if a ≤ b then a :: b :: l else b :: insertSorted a l

/-- Ascending insertion sort, matching Python's `sorted` on rationals. -/
def sortQ : List ℚ → List ℚ := List.foldr insertSorted []

/-- `statistics.median`: sort; odd length takes the middle element, even
length averages the two middle elements. -/
def median (l : List ℚ) : ℚ :=
  let s := sortQ l
  let n := s.length
  if n % 2 = 1 then s.getD (n / 2) 0
  else (s.getD (n / 2 - 1) 0 + s.getD (n / 2) 0) / 2

/-- The body of `estimate_freq` after DC removal (lines 45-80), as a
function of the centered sequence `x` and the sample rate. -/
def estimateCore (x : List ℚ) (rate : ℚ) : Option ℚ :=
  let ct := (scanEvents x (threshold x)).map (timeOf rate)
  if ct.length < 2 then none
  else
    let periods := (ct.zip ct.tail).map (fun p => p.2 - p.1)
    if periods = [] then none
    else
      let T := median periods
      if T ≤ 0 then none else some (1 / T)

/-- `estimate_freq(samples, rate)` (lines 37-80).  `None` is `none`; the
guard `if not samples or len(samples) < 2` is `length < 2`. -/
def estimate_freq (samples : List ℚ) (rate : ℚ) : Option ℚ :=
  if samples.length < 2 then none
  else estimateCore (centered samples) rate

/-! ## Trigger alignment (`update`, lines 177-184) -/

/-- `np.sign` on a real value, as an integer in `{-1, 0, 1}`. -/
def npSign (q : ℚ) : ℤ :=
  if q < 0 then -1 else if q = 0 then 0 else 1

/-- `signs = np.sign(search_area - trigger_level)` for the first
`sl` samples of the window (lines 179-180). -/
def signsOf (w : List ℚ) (level : ℚ) (sl : ℕ) : List ℤ :=
  (w.take sl).map (fun s => npSign (s - level))

/-- `diffs = np.diff(signs)` (line 181). -/
def diffsOf (w : List ℚ) (level : ℚ) (sl : ℕ) : List ℤ :=
  List.zipWith (fun a b => b - a) (signsOf w level sl) (signsOf w level sl).tail

/-- `np.where(diffs > 0)[0]` followed by taking element 0: the index of the
first strictly positive entry, if any. -/
def firstPosIdx : List ℤ → Option ℕ
  | [] => none
  | d :: rest => if 0 < d then some 0 else (firstPosIdx rest).map (· + 1)

/-- The sign-transition search of lines 179-184 run unconditionally on the
first `sl` samples: first index with a positive first difference of signs,
or 0 when none exists. -/
def searchOnly (w : List ℚ) (level : ℚ) (sl : ℕ) : ℕ :=
  match firstPosIdx (diffsOf w level sl) with
  | some k => k
  | none => 0

/-- The trigger-offset computation (lines 177-184): `offset = 0`, and only
when `len(vis_data) > CHUNK` is the search over `vis_data[:CHUNK]`
performed; `sl` stands for the `CHUNK` constant. -/
def align (w : List ℚ) (level : ℚ) (sl : ℕ) : ℕ :=
  if w.length ≤ sl then 0
  else searchOnly w level sl

/-- A positive first difference of the sign sequence at index `k`
(the detection the code actually performs). -/
def upward (w : List ℚ) (level : ℚ) (sl : ℕ) (k : ℕ) : Prop :=
  k < (diffsOf w level sl).length ∧ 0 < (diffsOf w level sl).getD k 0

/-- The claim's verbal notion of an upward crossing at index `k`: the sign
of `sample - level` is non-positive at `k` and positive at `k + 1`. -/
def upwardNP (w : List ℚ) (level : ℚ) (sl : ℕ) (k : ℕ) : Prop :=
  k + 1 < (signsOf w level sl).length ∧
    (signsOf w level sl).getD k 1 ≤ 0 ∧ 0 < (signsOf w level sl).getD (k + 1) 0

instance (w : List ℚ) (level : ℚ) (sl k : ℕ) : Decidable (upward w level sl k) := by
  unfold upward; infer_instance

instance (w : List ℚ) (level : ℚ) (sl k : ℕ) : Decidable (upwardNP w level sl k) := by
  unfold upwardNP; infer_instance

/-! ## Ring buffer (`math_buffer = collections.deque(maxlen=RATE*10)`, line 33) -/

/-- `deque.extend` with `maxlen = cap`: append, then evict oldest entries
beyond capacity. -/
def pushRing (cap : ℕ) (buf xs : List ℤ) : List ℤ :=
  let l := buf ++ xs
  l.drop (l.length - cap)

/-- A sequence of pushes starting from the empty buffer. -/
def pushAll (cap : ℕ) (chunks : List (List ℤ)) : List ℤ :=
  chunks.foldl (pushRing cap) []

/-! ## Acquisition callback (`audio_callback`, lines 84-92) -/

/-- Decode one little-endian signed 16-bit value from bytes `lo`, `hi`. -/
def s16 (lo hi : ℕ) : ℤ :=
  let v : ℕ := lo + 256 * hi
  if v < 32768 then (v : ℤ) else (v : ℤ) - 65536

/-- `struct.unpack("<" + "h" * (len(in_data) // 2), in_data)`: Python's
`struct.unpack` demands that the buffer length equal the format size
`2 * (len // 2)`, so an odd-length buffer raises `struct.error`. -/
def unpackS16LE : List ℕ → Except String (List ℤ)
  | [] => .ok []
  | [_] => .error "struct.error"
  | lo :: hi :: rest => (unpackS16LE rest).map (fun s => s16 lo hi :: s)

/-- `s[0::CHANNELS]` with `CHANNELS = 2`: every second sample starting
from index 0 (the left channel). -/
def strideLeft : List ℤ → List ℤ
  | [] => []
  | [a] => [a]
  | a :: _ :: rest => a :: strideLeft rest

/-- `paContinue`. -/
inductive CBStatus | paContinue
deriving DecidableEq

/-- `audio_callback(in_data, ...)` (lines 84-92), modelled over the buffer
state: an empty frame is skipped, otherwise the frame is unpacked (which
can raise), the left channel is extracted and pushed into the ring buffer
of capacity `cap`; the callback returns `paContinue`. An uncaught Python
exception is the `.error` branch. -/
def audio_callback (in_data : List ℕ) (buf : List ℤ) (cap : ℕ) :
    Except String (List ℤ × CBStatus) :=
  if in_data = [] then .ok (buf, .paContinue)
  else
    match unpackS16LE in_data with
    | .error e => .error e
    | .ok s => .ok (pushRing cap buf (strideLeft s), .paContinue)

/-! ## Spec-side scan machine (for the refinement claim C1) -/

/-- The two states of the spec's scan machine. -/
inductive ScanState | unarmed | armed
deriving DecidableEq

/-- One step of the spec's state machine at index `i` over the indexed
sequence `x`: UNARMED → ARMED when `x i ≤ -th` with no crossing test at
that index; when ARMED and `x (i-1) < 0 ≤ x i`, emit
`(i - 1 + (-x[i-1])/(x[i]-x[i-1])) / rate` (fraction 0 if the denominator
is 0) and return to UNARMED; no other transitions. -/
def specStep (x : ℕ → ℚ) (th rate : ℚ) (i : ℕ) :
    ScanState → ScanState × Option ℚ
  | .unarmed => if x i ≤ -th then (.armed, none) else (.unarmed, none)
  | .armed =>
    if x (i - 1) < 0 ∧ 0 ≤ x i then
      let d := x i - x (i - 1)
      let f := if d ≠ 0 then -x (i - 1) / d else 0
      (.unarmed, some ((((i - 1 : ℕ) : ℚ) + f) / rate))
    else (.armed, none)

/-- Run the spec machine over a list of indices, collecting emitted times. -/
def specRun (x : ℕ → ℚ) (th rate : ℚ) : List ℕ → ScanState → List ℚ
  | [], _ => []
  | i :: is, s =>
    match specStep x th rate i s with
    | (s', some t) => t :: specRun x th rate is s'
    | (s', none) => specRun x th rate is s'

/-- The spec's scan: indices `1 .. len(x) - 1`, initial state UNARMED. -/
def specScan (x : List ℚ) (th rate : ℚ) : List ℚ :=
  specRun (fun i => x.getD i 0) th rate (List.range' 1 (x.length - 1)) .unarmed

/-- The spec's threshold: `0.05 × max(|x|)`, with a maximum of 0 replaced
by 1.0. -/
def specThreshold (x : List ℚ) : ℚ :=
  let m := (x.map (fun v => |v|)).foldr max 0
  (5 / 100) * (if m = 0 then 1 else m)

end Scope

namespace Scope

/-! ## Basic lemmas about the estimator pipeline -/

lemma crossingTimes_short (samples : List ℚ) (rate : ℚ)
    (h : samples.length < 2) : crossingTimes samples rate = [] := by
  match samples with
  | [] => rfl
  | [a] => rfl
  | a :: b :: l => simp only [List.length_cons] at h; omega

lemma estimateCore_centered (samples : List ℚ) (rate : ℚ) :
    estimateCore (centered samples) rate =
      (if (crossingTimes samples rate).length < 2 then none
       else if periodsOf samples rate = [] then none
       else if median (periodsOf samples rate) ≤ 0 then none
       else some (1 / median (periodsOf samples rate))) := rfl

lemma periodsOf_length (samples : List ℚ) (rate : ℚ) :
    (periodsOf samples rate).length = (crossingTimes samples rate).length - 1 := by
  unfold periodsOf
  simp only [List.length_map, List.length_zip, List.length_tail]
  omega

end Scope

open Scope

/-- C2: whenever the hysteretic scan records at least 2 crossing times and
the median of the list of consecutive crossing-time differences is strictly
positive, `estimate_freq` returns the reciprocal of that median. -/
theorem estimate_median_reciprocal (samples : List ℚ) (rate : ℚ)
    (h2 : 2 ≤ (crossingTimes samples rate).length)
    (hpos : 0 < median (periodsOf samples rate)) :
    estimate_freq samples rate = some (1 / median (periodsOf samples rate)) := by
  have hlen : ¬ samples.length < 2 := by
    intro h
    rw [crossingTimes_short samples rate h] at h2
    simp at h2
  have hp : periodsOf samples rate ≠ [] := by
    have hl := periodsOf_length samples rate
    intro he
    rw [he] at hl
    simp at hl
    omega
  unfold estimate_freq
  rw [if_neg hlen, estimateCore_centered]
  rw [if_neg (by omega), if_neg hp, if_neg (not_le.mpr hpos)]

/-- Witness for the theorem of C2 at the window `[1,-1,1,-1,1,-1]`,
sample rate 2, where the median period is 1. -/
theorem estimate_median_reciprocal_witness :
    2 ≤ (crossingTimes [1, -1, 1, -1, 1, -1] 2).length ∧
    0 < median (periodsOf [1, -1, 1, -1, 1, -1] 2) ∧
    estimate_freq [1, -1, 1, -1, 1, -1] 2 =
      some (1 / median (periodsOf [1, -1, 1, -1, 1, -1] 2)) :=
  ⟨by norm_num [crossingTimes, centered, peakOf, threshold, HYST_FRAC, scanEvents, scanAux],
    by norm_num [periodsOf, crossingTimes, centered, peakOf, threshold, HYST_FRAC,
      scanEvents, scanAux, timeOf, frac, median, sortQ, insertSorted],
    estimate_median_reciprocal [1, -1, 1, -1, 1, -1] 2
      (by norm_num [crossingTimes, centered, peakOf, threshold, HYST_FRAC, scanEvents, scanAux])
      (by norm_num [periodsOf, crossingTimes, centered, peakOf, threshold, HYST_FRAC,
        scanEvents, scanAux, timeOf, frac, median, sortQ, insertSorted])⟩

/-- C3: `estimate_freq` returns `none` exactly when the window has fewer
than 2 samples, the scan records fewer than 2 crossing times, or the median
of the period list is at most 0; in every other case it returns a value.
The model is a total function, so no input can raise. -/
theorem estimate_none_iff (samples : List ℚ) (rate : ℚ) :
    estimate_freq samples rate = none ↔
      samples.length < 2 ∨ (crossingTimes samples rate).length < 2 ∨
        median (periodsOf samples rate) ≤ 0 := by
  unfold estimate_freq
  by_cases h : samples.length < 2
  · simp [h]
  · rw [if_neg h, estimateCore_centered]
    by_cases h2 : (crossingTimes samples rate).length < 2
    · simp [h, h2]
    · have hp : periodsOf samples rate ≠ [] := by
        have hl := periodsOf_length samples rate
        intro he
        rw [he] at hl
        simp at hl
        omega
      rw [if_neg h2, if_neg hp]
      by_cases hm : median (periodsOf samples rate) ≤ 0
      · simp [h, h2, hm]
      · simp [h, h2, hm]

/-- C5: whenever `estimate_freq` returns a value, that value is strictly
positive (and, being a rational of the exact model, finite). -/
theorem estimate_pos (samples : List ℚ) (rate : ℚ) (f : ℚ) (hr : 0 < rate)
    (h : estimate_freq samples rate = some f) : 0 < f := by
  unfold estimate_freq at h
  by_cases hlen : samples.length < 2
  · rw [if_pos hlen] at h
    exact absurd h (by simp)
  · rw [if_neg hlen, estimateCore_centered] at h
    by_cases h2 : (crossingTimes samples rate).length < 2
    · rw [if_pos h2] at h
      exact absurd h (by simp)
    · rw [if_neg h2] at h
      by_cases hp : periodsOf samples rate = []
      · rw [if_pos hp] at h
        exact absurd h (by simp)
      · rw [if_neg hp] at h
        by_cases hm : median (periodsOf samples rate) ≤ 0
        · rw [if_pos hm] at h
          exact absurd h (by simp)
        · rw [if_neg hm] at h
          have hf : 1 / median (periodsOf samples rate) = f := by
            exact Option.some_injective _ h
          rw [← hf]
          exact one_div_pos.mpr (lt_of_not_le hm)

/-- Witness for the theorem of C5: on `[1,-1,1,-1,1,-1]` at rate 2 the
estimator returns 1, which is positive. -/
theorem estimate_pos_witness :
    (0 : ℚ) < 2 ∧ estimate_freq [1, -1, 1, -1, 1, -1] 2 = some 1 ∧ (0 : ℚ) < 1 :=
  ⟨by norm_num,
    by norm_num [estimate_freq, estimateCore, centered, peakOf, threshold, HYST_FRAC,
      scanEvents, scanAux, timeOf, frac, median, sortQ, insertSorted],
    estimate_pos [1, -1, 1, -1, 1, -1] 2 1 (by norm_num)
      (by norm_num [estimate_freq, estimateCore, centered, peakOf, threshold, HYST_FRAC,
        scanEvents, scanAux, timeOf, frac, median, sortQ, insertSorted])⟩

namespace Scope

lemma scanAux_mem (th : ℚ) :
    ∀ (rest : List ℚ) (a : ℚ) (i : ℕ) (armed : Bool) (e : ℕ × ℚ × ℚ),
      e ∈ scanAux th rest a i armed → e.2.1 < 0 ∧ 0 ≤ e.2.2 := by
  intro rest
  induction rest with
  | nil => intro a i armed e he; simp [scanAux] at he
  | cons b rest ih =>
    intro a i armed e he
    cases armed with
    | false =>
      simp only [scanAux] at he
      by_cases ht : b ≤ -th
      · rw [if_pos ht] at he
        exact ih b (i + 1) true e he
      · rw [if_neg ht] at he
        exact ih b (i + 1) false e he
    | true =>
      simp only [scanAux] at he
      by_cases hc : a < 0 ∧ 0 ≤ b
      · rw [if_pos hc] at he
        rcases List.mem_cons.mp he with rfl | hmem
        · exact hc
        · exact ih b (i + 1) false e hmem
      · rw [if_neg hc] at he
        exact ih b (i + 1) true e he

lemma scanEvents_mem (x : List ℚ) (th : ℚ) (e : ℕ × ℚ × ℚ)
    (he : e ∈ scanEvents x th) : e.2.1 < 0 ∧ 0 ≤ e.2.2 := by
  cases x with
  | nil => simp [scanEvents] at he
  | cons a rest => exact scanAux_mem th rest a 1 false e he

end Scope

/-- C10 (amended): at every crossing event `(i, a, b)` detected by the scan
of `estimate_freq` on the centered window, `a < 0 ≤ b`, so the
interpolation denominator `b - a` is strictly positive, the zero-denominator
fallback is unreachable (the computed fraction is literally `-a / (b - a)`),
and the fraction lies in the half-open interval `(0, 1]`. -/
theorem crossing_frac_bounds (samples : List ℚ) (e : ℕ × ℚ × ℚ)
    (he : e ∈ scanEvents (centered samples) (threshold (centered samples))) :
    e.2.1 < 0 ∧ 0 ≤ e.2.2 ∧ 0 < e.2.2 - e.2.1 ∧
      frac e.2.1 e.2.2 = -e.2.1 / (e.2.2 - e.2.1) ∧
      0 < frac e.2.1 e.2.2 ∧ frac e.2.1 e.2.2 ≤ 1 := by
  obtain ⟨ha, hb⟩ := scanEvents_mem _ _ e he
  have hd : 0 < e.2.2 - e.2.1 := by linarith
  have hfr : frac e.2.1 e.2.2 = -e.2.1 / (e.2.2 - e.2.1) := by
    unfold frac
    rw [if_pos (ne_of_gt hd)]
  refine ⟨ha, hb, hd, hfr, ?_, ?_⟩
  · rw [hfr]
    exact div_pos (by linarith) hd
  · rw [hfr, div_le_one hd]
    linarith

/-- Counterexample to C10 as stated: on the window `[2, -2, 0]` the scan
detects the crossing `(2, -2, 0)` (the current sample is exactly zero), and
its interpolated fraction is `1`, outside `[0, 1)`. -/
theorem frac_unit_counterexample :
    ((2, -2, 0) : ℕ × ℚ × ℚ) ∈
      scanEvents (centered [2, -2, 0]) (threshold (centered [2, -2, 0])) ∧
    ¬ frac (-2) 0 < 1 := by
  norm_num [centered, peakOf, threshold, HYST_FRAC, scanEvents, scanAux, frac]

/-- Witness for the theorem of C10 at the event `(2, -1, 1)` of the window
`[1, -1, 1, -1, 1, -1]`, whose fraction is `1/2`. -/
theorem crossing_frac_bounds_witness :
    0 < frac (-1) 1 ∧ frac (-1) 1 ≤ 1 := by
  have h := crossing_frac_bounds [1, -1, 1, -1, 1, -1] (2, -1, 1)
    (by norm_num [centered, peakOf, threshold, HYST_FRAC, scanEvents, scanAux])
  exact ⟨h.2.2.2.2.1, h.2.2.2.2.2⟩

namespace Scope

lemma pushRing_append (cap : ℕ) (buf x y : List ℤ) :
    pushRing cap (pushRing cap buf x) y = pushRing cap buf (x ++ y) := by
  unfold pushRing
  rw [← List.append_assoc]
  have hle : (buf ++ x).length - cap ≤ (buf ++ x).length := by omega
  rw [← List.drop_append_of_le_length hle]
  rw [List.drop_drop]
  congr 1
  simp only [List.length_append, List.length_drop]
  omega

lemma pushRing_length_le (cap : ℕ) (buf xs : List ℤ) :
    (pushRing cap buf xs).length ≤ cap := by
  unfold pushRing
  simp only [List.length_drop, List.length_append]
  omega

lemma pushAll_join (cap : ℕ) :
    ∀ (chunks : List (List ℤ)) (buf : List ℤ), buf.length ≤ cap →
      List.foldl (pushRing cap) buf chunks = pushRing cap buf chunks.flatten := by
  intro chunks
  induction chunks with
  | nil =>
    intro buf hb
    simp only [List.foldl_nil, List.flatten_nil, pushRing, List.append_nil]
    rw [Nat.sub_eq_zero_of_le hb, List.drop_zero]
  | cons c cs ih =>
    intro buf _
    rw [List.foldl_cons, ih (pushRing cap buf c) (pushRing_length_le cap buf c),
      pushRing_append]
    rfl

end Scope

set_option maxRecDepth 10000 in
/-- C8: any sequence of pushes into the ring buffer leaves exactly the most
recent `cap` samples in production order when the total pushed exceeds the
capacity; the retained length never exceeds the capacity; and pushing the
integers 0..149 into a buffer of capacity 100 leaves `[50, ..., 149]`. -/
theorem ring_buffer_retention (cap : ℕ) (chunks : List (List ℤ))
    (htot : cap < chunks.flatten.length) :
    pushAll cap chunks = chunks.flatten.drop (chunks.flatten.length - cap) ∧
    (pushAll cap chunks).length = cap ∧
    (∀ chunks' : List (List ℤ), (pushAll cap chunks').length ≤ cap) ∧
    pushAll 100 ((List.range 150).map (fun n => [(n : ℤ)])) =
      (List.range' 50 100).map (fun n => (n : ℤ)) := by
  have hmain : pushAll cap chunks = chunks.flatten.drop (chunks.flatten.length - cap) := by
    unfold pushAll
    rw [pushAll_join cap chunks [] (by simp)]
    simp [pushRing]
  refine ⟨hmain, ?_, ?_, ?_⟩
  · rw [hmain]
    simp only [List.length_drop]
    omega
  · intro chunks'
    unfold pushAll
    rw [pushAll_join cap chunks' [] (by simp)]
    exact Scope.pushRing_length_le cap [] chunks'.flatten
  · decide

/-- Witness for the theorem of C8: pushing `[1]`, `[2]`, `[3]` into a
buffer of capacity 2 leaves `[2, 3]`. -/
theorem ring_buffer_retention_witness :
    2 < ([[1], [2], [3]] : List (List ℤ)).flatten.length ∧
    pushAll 2 [[1], [2], [3]] = [2, 3] :=
  ⟨by decide, by
    have h := ring_buffer_retention 2 [[1], [2], [3]] (by decide)
    exact h.1.trans (by decide)⟩

/-- C9: the acquisition callback propagates `struct.error` to its caller on
a frame whose byte length is odd (not a whole number of 16-bit values), and
only well-formed frames are pushed and answered with `paContinue`.  The
first conjunct evaluates the code at the failing 3-byte frame. -/
theorem audio_callback_raises_on_odd_frame :
    audio_callback [0, 0, 0] [] 480000 = .error "struct.error" ∧
    audio_callback [7, 0, 1, 0] [] 480000 = .ok ([7], .paContinue) :=
  ⟨rfl, rfl⟩

namespace Scope

lemma firstPosIdx_none (l : List ℤ) :
    firstPosIdx l = none ↔ ∀ j < l.length, ¬ 0 < l.getD j 0 := by
  induction l with
  | nil => simp [firstPosIdx]
  | cons d rest ih =>
    unfold firstPosIdx
    by_cases hd : 0 < d
    · rw [if_pos hd]
      constructor
      · intro h
        exact absurd h (by simp)
      · intro h
        exact absurd hd (by simpa using h 0 (by simp))
    · rw [if_neg hd, Option.map_eq_none', ih]
      constructor
      · intro h j hj
        cases j with
        | zero => simpa using hd
        | succ n =>
          rw [List.getD_cons_succ]
          exact h n (by simpa using hj)
      · intro h j hj
        have := h (j + 1) (by simpa using hj)
        simpa using this

lemma firstPosIdx_some (l : List ℤ) (k : ℕ) :
    firstPosIdx l = some k ↔
      (k < l.length ∧ 0 < l.getD k 0 ∧ ∀ j < k, ¬ 0 < l.getD j 0) := by
  induction l generalizing k with
  | nil => simp [firstPosIdx]
  | cons d rest ih =>
    unfold firstPosIdx
    by_cases hd : 0 < d
    · rw [if_pos hd]
      constructor
      · intro h
        obtain rfl : 0 = k := by simpa using h
        refine ⟨by simp, by simpa, ?_⟩
        intro j hj
        omega
      · rintro ⟨hk, hpos, hmin⟩
        cases k with
        | zero => rfl
        | succ n => exact absurd hd (by simpa using hmin 0 (by omega))
    · rw [if_neg hd]
      cases k with
      | zero =>
        constructor
        · intro h
          rcases Option.map_eq_some'.mp h with ⟨m, _, hm⟩
          omega
        · rintro ⟨_, hpos, _⟩
          exact absurd (by simpa using hpos) hd
      | succ n =>
        rw [Option.map_eq_some']
        constructor
        · rintro ⟨m, hm, hmk⟩
          rw [show m = n from by omega] at hm
          obtain ⟨h1, h2, h3⟩ := (ih n).mp hm
          refine ⟨by simpa using h1, by simpa using h2, ?_⟩
          intro j hj
          cases j with
          | zero => simpa using hd
          | succ p =>
            rw [List.getD_cons_succ]
            exact h3 p (by omega)
        · rintro ⟨hk, hpos, hmin⟩
          refine ⟨n, (ih n).mpr ⟨by simpa using hk, by simpa using hpos, ?_⟩, rfl⟩
          intro p hp
          have := hmin (p + 1) (by omega)
          simpa using this

end Scope

/-- C6 (amended): for a window strictly longer than `search_length`, if the
first differences of the sign sequence of its first `search_length` samples
are strictly positive at exactly one index `k` (the code's upward-crossing
detection, which also fires on a transition from below-level to
exactly-at-level), `align` returns `k`; if they are strictly positive
nowhere, `align` returns 0. -/
theorem align_unique_trigger (w : List ℚ) (level : ℚ) (sl : ℕ)
    (hlen : sl < w.length) :
    (∀ k, (∀ j, upward w level sl j ↔ j = k) → align w level sl = k) ∧
    ((∀ j, ¬ upward w level sl j) → align w level sl = 0) := by
  have halign : align w level sl = searchOnly w level sl := by
    unfold align
    rw [if_neg (by omega)]
  constructor
  · intro k hk
    rw [halign]
    unfold searchOnly
    have hkk : upward w level sl k := (hk k).mpr rfl
    have hk1 := hkk.1
    have hsome : firstPosIdx (diffsOf w level sl) = some k := by
      rw [firstPosIdx_some]
      refine ⟨hkk.1, hkk.2, ?_⟩
      intro j hj hpos
      have hup : upward w level sl j := ⟨by omega, hpos⟩
      have := (hk j).mp hup
      omega
    rw [hsome]
  · intro hnone
    rw [halign]
    unfold searchOnly
    have hno : firstPosIdx (diffsOf w level sl) = none := by
      rw [firstPosIdx_none]
      intro j hj hpos
      exact hnone j ⟨hj, hpos⟩
    rw [hno]

/-- Counterexample to C6 as stated: on the window `[5, -1, 0, 0]` with
level 0 and `search_length` 3, the sign sequence `1, -1, 0` never goes from
non-positive to positive, yet `align` returns 1 (the first difference of
signs is positive at the `-1 → 0` step), not 0. -/
theorem align_np_counterexample :
    ¬ ((∀ j, ¬ upwardNP [5, -1, 0, 0] 0 3 j) → align [5, -1, 0, 0] 0 3 = 0) := by
  intro h
  have hlen3 : (signsOf [5, -1, 0, 0] 0 3).length = 3 := by
    norm_num [signsOf, npSign]
  have hno : ∀ j, ¬ upwardNP [5, -1, 0, 0] 0 3 j := by
    intro j hj
    have h1 := hj.1
    rw [hlen3] at h1
    have h2 : j < 2 := by omega
    interval_cases j
    · exact absurd hj (by norm_num [upwardNP, signsOf, npSign])
    · exact absurd hj (by norm_num [upwardNP, signsOf, npSign])
  have h0 := h hno
  have h1 : align [5, -1, 0, 0] 0 3 = 1 := by
    norm_num [align, searchOnly, diffsOf, signsOf, npSign, firstPosIdx]
  omega

/-- Witness for the theorem of C6: on `[1, -1, 1, 1]` with level 0 and
`search_length` 3 the unique trigger index is 1 and `align` returns 1. -/
theorem align_unique_trigger_witness : align [1, -1, 1, 1] 0 3 = 1 := by
  have h := align_unique_trigger [1, -1, 1, 1] 0 3 (by norm_num)
  refine h.1 1 ?_
  intro j
  constructor
  · intro hj
    have h1 := hj.1
    have hlen2 : (diffsOf [1, -1, 1, 1] 0 3).length = 2 := by
      norm_num [diffsOf, signsOf, npSign]
    rw [hlen2] at h1
    interval_cases j
    · exact absurd hj (by norm_num [upward, diffsOf, signsOf, npSign])
    · rfl
  · rintro rfl
    constructor
    · norm_num [diffsOf, signsOf, npSign]
    · norm_num [diffsOf, signsOf, npSign]

/-- C7 (amended): the trigger offset depends only on the first
`search_length` samples (and the window length used by the guard); a window
of length at most `search_length` skips the stabilization entirely and
yields offset 0, and the sign-transition search is performed exactly for
windows strictly longer than `search_length`. -/
theorem align_search_contract (w : List ℚ) (level : ℚ) (sl : ℕ) :
    (∀ w' : List ℚ, w.take sl = w'.take sl → w.length = w'.length →
        align w level sl = align w' level sl) ∧
    (w.length ≤ sl → align w level sl = 0) ∧
    (sl < w.length → align w level sl = searchOnly w level sl) := by
  refine ⟨?_, ?_, ?_⟩
  · intro w' htake hlen
    unfold align searchOnly diffsOf signsOf
    rw [htake, hlen]
  · intro h
    unfold align
    rw [if_pos h]
  · intro h
    unfold align
    rw [if_neg (by omega)]

/-- Counterexample to C7 as stated: the window `[1, -1, 1, -1]` has length
4, equal to `search_length` 4, so the claim says the sign-transition search
is performed; the search would return offset 1, but the code's guard
`len(vis_data) > CHUNK` fails and `align` returns 0. -/
theorem align_boundary_counterexample :
    4 ≤ ([1, -1, 1, -1] : List ℚ).length ∧
    searchOnly [1, -1, 1, -1] 0 4 = 1 ∧ align [1, -1, 1, -1] 0 4 = 0 := by
  refine ⟨by norm_num, ?_, ?_⟩
  · norm_num [searchOnly, diffsOf, signsOf, npSign, firstPosIdx]
  · norm_num [align]

/-- Witness for the theorem of C7 on the 5-sample window `[1,-1,1,-1,7]`
with `search_length` 4: the search is performed and returned. -/
theorem align_search_contract_witness :
    align [1, -1, 1, -1, 7] 0 4 = searchOnly [1, -1, 1, -1, 7] 0 4 :=
  (align_search_contract [1, -1, 1, -1, 7] 0 4).2.2 (by norm_num)

namespace Scope

lemma sum_map_add_const (c : ℚ) (l : List ℚ) :
    (l.map (fun s => s + c)).sum = l.sum + l.length * c := by
  induction l with
  | nil => simp
  | cons a t ih =>
    simp only [List.map_cons, List.sum_cons, ih, List.length_cons]
    push_cast
    ring

lemma centered_add_const (samples : List ℚ) (c : ℚ) (hne : samples ≠ []) :
    centered (samples.map (fun s => s + c)) = centered samples := by
  have hn : (samples.length : ℚ) ≠ 0 := by
    have h0 : 0 < samples.length := List.length_pos.mpr hne
    exact Nat.cast_ne_zero.mpr (by omega)
  unfold centered
  rw [List.length_map, sum_map_add_const, List.map_map]
  have hfun : ((fun s => s - (samples.sum + (samples.length : ℚ) * c) / (samples.length : ℚ)) ∘
      (fun s => s + c)) = fun s : ℚ => s - samples.sum / (samples.length : ℚ) := by
    funext s
    simp only [Function.comp]
    field_simp
    ring
  rw [hfun]

end Scope

/-- C4: `estimate_freq` is invariant under adding a constant bias to every
sample of the window, because mean subtraction removes the bias exactly. -/
theorem estimate_dc_invariant (samples : List ℚ) (c : ℚ) (rate : ℚ) :
    estimate_freq (samples.map (fun s => s + c)) rate = estimate_freq samples rate := by
  have hlen : (samples.map (fun s => s + c)).length = samples.length :=
    List.length_map samples _
  by_cases h : samples.length < 2
  · unfold estimate_freq
    rw [hlen, if_pos h, if_pos h]
  · have hne : samples ≠ [] := by
      intro he
      rw [he] at h
      simp at h
    unfold estimate_freq
    rw [hlen, if_neg h, if_neg h, Scope.centered_add_const samples c hne]

namespace Scope

lemma getD_of_drop (x : List ℚ) (n : ℕ) (a : ℚ) (l : List ℚ)
    (h : x.drop n = a :: l) : x.getD n 0 = a := by
  have h0 := List.getElem?_drop x n 0
  rw [h, Nat.add_zero] at h0
  rw [List.getD_eq_getElem?_getD, ← h0]
  simp

lemma drop_cons_succ (x : List ℚ) (n : ℕ) (a : ℚ) (l : List ℚ)
    (h : x.drop n = a :: l) : x.drop (n + 1) = l := by
  have h1 : (x.drop n).drop 1 = x.drop (n + 1) := by
    rw [List.drop_drop, Nat.add_comm]
  rw [← h1, h]
  rfl

lemma specRun_cons (f : ℕ → ℚ) (th rate : ℚ) (i : ℕ) (is : List ℕ)
    (s : ScanState) :
    specRun f th rate (i :: is) s =
      match specStep f th rate i s with
      | (s', some t) => t :: specRun f th rate is s'
      | (s', none) => specRun f th rate is s' := rfl

lemma specStep_armed (f : ℕ → ℚ) (th rate : ℚ) (i : ℕ) :
    specStep f th rate i .armed =
      if f (i - 1) < 0 ∧ 0 ≤ f i then
        (.unarmed, some ((((i - 1 : ℕ) : ℚ) +
          (if f i - f (i - 1) ≠ 0 then -f (i - 1) / (f i - f (i - 1)) else 0)) / rate))
      else (.armed, none) := rfl

lemma specStep_unarmed (f : ℕ → ℚ) (th rate : ℚ) (i : ℕ) :
    specStep f th rate i .unarmed =
      if f i ≤ -th then (.armed, none) else (.unarmed, none) := rfl

lemma specRun_emit {f : ℕ → ℚ} {th rate : ℚ} {i : ℕ} {s s' : ScanState}
    {t : ℚ} (is : List ℕ) (h : specStep f th rate i s = (s', some t)) :
    specRun f th rate (i :: is) s = t :: specRun f th rate is s' := by
  rw [specRun_cons, h]

lemma specRun_skip {f : ℕ → ℚ} {th rate : ℚ} {i : ℕ} {s s' : ScanState}
    (is : List ℕ) (h : specStep f th rate i s = (s', none)) :
    specRun f th rate (i :: is) s = specRun f th rate is s' := by
  rw [specRun_cons, h]

lemma scanAux_specRun (x : List ℚ) (th rate : ℚ) :
    ∀ (rest : List ℚ) (a : ℚ) (i : ℕ) (armed : Bool),
      1 ≤ i → x.drop (i - 1) = a :: rest →
      (scanAux th rest a i armed).map (timeOf rate) =
        specRun (fun j => x.getD j 0) th rate (List.range' i rest.length)
          (if armed then .armed else .unarmed) := by
  intro rest
  induction rest with
  | nil =>
    intro a i armed _ _
    cases armed <;> simp [scanAux, specRun, List.range']
  | cons b rest ih =>
    intro a i armed hi hdrop
    have hga : x.getD (i - 1) 0 = a := getD_of_drop x (i - 1) a (b :: rest) hdrop
    have hdropi : x.drop i = b :: rest := by
      have h2 := drop_cons_succ x (i - 1) a (b :: rest) hdrop
      rwa [Nat.sub_add_cancel hi] at h2
    have hgb : x.getD i 0 = b := getD_of_drop x i b rest hdropi
    have hnext : x.drop ((i + 1) - 1) = b :: rest := by simpa using hdropi
    have hrange : List.range' i (b :: rest).length =
        i :: List.range' (i + 1) rest.length := by
      rw [List.length_cons, List.range'_succ]
    rw [hrange]
    cases armed with
    | true =>
      rw [if_pos rfl]
      by_cases hc : a < 0 ∧ 0 ≤ b
      · have hstep : specStep (fun j => x.getD j 0) th rate i .armed
            = (.unarmed, some (timeOf rate (i, a, b))) := by
          rw [specStep_armed]
          simp only [hga, hgb]
          rw [if_pos hc]
          simp only [timeOf, frac]
        rw [specRun_emit (List.range' (i + 1) rest.length) hstep]
        have hL : scanAux th (b :: rest) a i true =
            (i, a, b) :: scanAux th rest b (i + 1) false := by
          simp only [scanAux]
          rw [if_pos hc]
        rw [hL, List.map_cons]
        have htail := ih b (i + 1) false (by omega) hnext
        rw [if_neg (by simp)] at htail
        rw [htail]
      · have hstep : specStep (fun j => x.getD j 0) th rate i .armed
            = (.armed, none) := by
          rw [specStep_armed]
          simp only [hga, hgb]
          rw [if_neg hc]
        rw [specRun_skip (List.range' (i + 1) rest.length) hstep]
        have hL : scanAux th (b :: rest) a i true =
            scanAux th rest b (i + 1) true := by
          simp only [scanAux]
          rw [if_neg hc]
        rw [hL]
        have htail := ih b (i + 1) true (by omega) hnext
        rw [if_pos rfl] at htail
        exact htail
    | false =>
      rw [if_neg (by simp)]
      by_cases ht : b ≤ -th
      · have hstep : specStep (fun j => x.getD j 0) th rate i .unarmed
            = (.armed, none) := by
          rw [specStep_unarmed]
          simp only [hgb]
          rw [if_pos ht]
        rw [specRun_skip (List.range' (i + 1) rest.length) hstep]
        have hL : scanAux th (b :: rest) a i false =
            scanAux th rest b (i + 1) true := by
          simp only [scanAux]
          rw [if_pos ht]
        rw [hL]
        have htail := ih b (i + 1) true (by omega) hnext
        rw [if_pos rfl] at htail
        exact htail
      · have hstep : specStep (fun j => x.getD j 0) th rate i .unarmed
            = (.unarmed, none) := by
          rw [specStep_unarmed]
          simp only [hgb]
          rw [if_neg ht]
        rw [specRun_skip (List.range' (i + 1) rest.length) hstep]
        have hL : scanAux th (b :: rest) a i false =
            scanAux th rest b (i + 1) false := by
          simp only [scanAux]
          rw [if_neg ht]
        rw [hL]
        have htail := ih b (i + 1) false (by omega) hnext
        rw [if_neg (by simp)] at htail
        exact htail

lemma scanEvents_specScan (x : List ℚ) (th rate : ℚ) :
    (scanEvents x th).map (timeOf rate) = specScan x th rate := by
  cases x with
  | nil => rfl
  | cons a rest =>
    unfold scanEvents specScan
    have h := scanAux_specRun (a :: rest) th rate rest a 1 false (le_refl 1) (by simp)
    rw [if_neg (by simp)] at h
    simpa using h

lemma threshold_eq_specThreshold (x : List ℚ) :
    threshold x = specThreshold x := by
  unfold threshold specThreshold peakOf HYST_FRAC
  rw [mul_comm]

end Scope

/-- C1: for every window of at least 2 samples, the crossing-time list
computed inside `estimate_freq` (the map of `timeOf` over the scan events
of the centered window, at the code's threshold) is exactly the output of
the spec's two-state UNARMED/ARMED machine run over indices
`1 .. len(x) - 1` of the mean-centered sequence with the spec's threshold
`0.05 × max(|x|)` (a zero maximum replaced by 1.0). -/
theorem estimate_crossings_spec (samples : List ℚ) (rate : ℚ)
    (h : 2 ≤ samples.length) :
    crossingTimes samples rate =
      specScan (centered samples) (specThreshold (centered samples)) rate := by
  unfold crossingTimes
  rw [Scope.threshold_eq_specThreshold]
  exact Scope.scanEvents_specScan (centered samples)
    (specThreshold (centered samples)) rate

/-- Witness for the theorem of C1 on the window `[1,-1,1,-1,1,-1]` at
sample rate 2. -/
theorem estimate_crossings_spec_witness :
    2 ≤ ([1, -1, 1, -1, 1, -1] : List ℚ).length ∧
    crossingTimes [1, -1, 1, -1, 1, -1] 2 =
      specScan (centered [1, -1, 1, -1, 1, -1])
        (specThreshold (centered [1, -1, 1, -1, 1, -1])) 2 :=
  ⟨by norm_num, estimate_crossings_spec [1, -1, 1, -1, 1, -1] 2 (by norm_num)⟩
